import Mathlib

/- Verification of the Sobel edge-filter repository: a shallow embedding of
   the CPU harness (src/unnamed/part_000, conv_harness_cpu.cpp) and of the
   GPU program (src/sobel_gpu.cu).  Image samples are modelled as exact
   rationals; the gradient magnitude (float sqrt in the source) is idealised
   as Real.sqrt, so buffers of filtered values live in the reals.  The byte
   to float converter of both main functions is additionally modelled with
   exact IEEE-754 round-to-nearest-even semantics over integers. -/

/-- Sobel Gx weights, row-major: exactly the array literal appearing both in
do_sobel_filtering (CPU file) and in main (GPU file). -/
def GxList : List ℚ := [1, 0, -1, 2, 0, -2, 1, 0, -1]

/-- Sobel Gy weights, row-major, as in the source. -/
def GyList : List ℚ := [1, 2, 1, 0, 0, 0, -1, -2, -1]

/-- Reading a flat 9-element weight array at an int index, as the C code does
with gx[(y+1)*3+(x+1)]; every read performed by the code is inside [0,8]. -/
def weightAt (l : List ℚ) : ℤ → ℚ := fun k => l.getD k.toNat 0

/-- The Gx weight array handed to the stencil by both drivers. -/
def gxF : ℤ → ℚ := weightAt GxList

/-- The Gy weight array handed to the stencil by both drivers. -/
def gyF : ℤ → ℚ := weightAt GyList

/-- Iteration domain of each stencil loop: for (y = -1; y <= 1; y++). -/
def offs : List ℤ := [-1, 0, 1]

/-- One accumulation loop nest of sobel_filtered_pixel (CPU file, lines 52-66
and again 70-84): loop y and x over -1..1, bounds-check the neighbour
(i+y, j+x) against [0,nrows) x [0,ncols), and when in range accumulate
w[(y+1)*3+(x+1)] * s[(i+y)*ncols+(j+x)]. -/
def convSum (s : ℤ → ℚ) (i j ncols nrows : ℤ) (w : ℤ → ℚ) : ℚ :=
  offs.foldl (fun t y =>
    offs.foldl (fun t x =>
      if 0 ≤ i + y ∧ i + y < nrows ∧ 0 ≤ j + x ∧ j + x < ncols then
        t + w ((y + 1) * 3 + (x + 1)) * s ((i + y) * ncols + (j + x))
      else t) t) 0

/-- sobel_filtered_pixel of the CPU file: two identical loop nests compute
t (with gx) and ty (with gy), and the result is sqrt(t*t + ty*ty). -/
noncomputable def sobel_filtered_pixel_cpu
    (s : ℤ → ℚ) (i j ncols nrows : ℤ) (gx gy : ℤ → ℚ) : ℝ :=
  let t := convSum s i j ncols nrows gx
  let ty := convSum s i j ncols nrows gy
  Real.sqrt ((t * t + ty * ty : ℚ) : ℝ)

/-- sobel_filtered_pixel of the GPU file: a single loop nest accumulates the
pair (Gx, Gy) under one bounds check, result sqrt(Gx*Gx + Gy*Gy). -/
noncomputable def sobel_filtered_pixel_gpu
    (s : ℤ → ℚ) (i j ncols nrows : ℤ) (gx gy : ℤ → ℚ) : ℝ :=
  let p : ℚ × ℚ := offs.foldl (fun p y =>
    offs.foldl (fun p x =>
      if 0 ≤ i + y ∧ i + y < nrows ∧ 0 ≤ j + x ∧ j + x < ncols then
        (p.1 + gx ((y + 1) * 3 + (x + 1)) * s ((i + y) * ncols + (j + x)),
         p.2 + gy ((y + 1) * 3 + (x + 1)) * s ((i + y) * ncols + (j + x)))
      else p) p) (0, 0)
  Real.sqrt ((p.1 * p.1 + p.2 * p.2 : ℚ) : ℝ)

/-- A store to a flat output buffer, out[k] = v.  All indices written by the
drivers are nonnegative, so buffers are indexed by naturals. -/
def writePix (d : ℕ → ℝ) (k : ℕ) (v : ℝ) : ℕ → ℝ :=
  fun m => if m = k then v else d m

/-- The body of the row loop of do_sobel_filtering: for j in [0,ncols),
out[i*ncols+j] = sobel_filtered_pixel(in, i, j, ncols, nrows, Gx, Gy). -/
noncomputable def cpuRow (inp : ℤ → ℚ) (ncols nrows : ℕ) (d : ℕ → ℝ) (i : ℕ) :
    ℕ → ℝ :=
  (List.range ncols).foldl (fun d j =>
    writePix d (i * ncols + j)
      (sobel_filtered_pixel_cpu inp i j ncols nrows gxF gyF)) d

/-- do_sobel_filtering with the omp-parallel row loop abstracted to an
explicit row schedule: the rows are processed in the order given by sched.
A run with a given OpenMP thread count corresponds to some schedule that
processes every row of [0,nrows) exactly once; rows write disjoint output
ranges, so this captures any interleaving of the workers. -/
noncomputable def do_sobel_filteringSched (inp : ℤ → ℚ) (d : ℕ → ℝ)
    (ncols nrows : ℕ) (sched : List ℕ) : ℕ → ℝ :=
  sched.foldl (cpuRow inp ncols nrows) d

/-- do_sobel_filtering of the CPU file (lines 104-119): for every i in
[0,nrows) and j in [0,ncols), out[i*ncols+j] = sobel_filtered_pixel(...),
with the fixed Gx/Gy weight arrays. -/
noncomputable def do_sobel_filtering (inp : ℤ → ℚ) (d : ℕ → ℝ)
    (ncols nrows : ℕ) : ℕ → ℝ :=
  do_sobel_filteringSched inp d ncols nrows (List.range nrows)

/-- The while loop of sobel_kernel_gpu run by one execution unit: starting at
idx, while idx < n write d[(idx/ncols)*ncols + idx%ncols] =
sobel_filtered_pixel(s, idx/ncols, idx%ncols, ...) and step idx by stride.
The source loop never runs with stride = 0 (a unit exists only when
blockDim.x * gridDim.x >= 1); the conjunct 0 < stride makes the model total. -/
noncomputable def gpuUnitRun (s : ℤ → ℚ) (d : ℕ → ℝ)
    (n nrows ncols stride idx : ℕ) : ℕ → ℝ :=
  if h : idx < n ∧ 0 < stride then
    gpuUnitRun s
      (writePix d ((idx / ncols) * ncols + idx % ncols)
        (sobel_filtered_pixel_gpu s ((idx / ncols : ℕ) : ℤ)
          ((idx % ncols : ℕ) : ℤ) ncols nrows gxF gyF))
      n nrows ncols stride (idx + stride)
  else d
termination_by n - idx
decreasing_by omega

/-- sobel_kernel_gpu (GPU file, lines 102-118) over a whole launch: every
execution unit (blockIdx.x = b < gridDim.x = blocks, threadIdx.x = t <
blockDim.x = tpb) runs the strided loop from unit id t + b*tpb with stride
blockDim.x * gridDim.x = tpb * blocks.  Distinct units write disjoint sets of
indices, so folding the units in any fixed order models the concurrent
launch; this is proved order-independent below. -/
noncomputable def sobel_kernel_gpu (s : ℤ → ℚ) (d : ℕ → ℝ)
    (n nrows ncols blocks tpb : ℕ) : ℕ → ℝ :=
  (List.range blocks).foldl (fun d b =>
    (List.range tpb).foldl (fun d t =>
      gpuUnitRun s d n nrows ncols (tpb * blocks) (t + b * tpb)) d) d

/-- The list of linear indices visited by one striding execution unit:
idx, idx+stride, idx+2*stride, ... while below n. -/
def unitIndices (n stride idx : ℕ) : List ℕ :=
  if h : idx < n ∧ 0 < stride then idx :: unitIndices n stride (idx + stride)
  else []
termination_by n - idx
decreasing_by omega

/-- All linear indices visited across the launch, units enumerated as in the
kernel: block b, thread t, unit id t + b*tpb, stride tpb * blocks. -/
def gpuVisited (n blocks tpb : ℕ) : List ℕ :=
  (List.range blocks).flatMap (fun b =>
    (List.range tpb).flatMap (fun t =>
      unitIndices n (tpb * blocks) (t + b * tpb)))

/-- The sum the spec describes, written from the words of the spec (to be
compared with convSum, which is written from the loops of the source): over
exactly the offsets (dy,dx) of the set {-1,0,1}^2, an in-range neighbour
contributes w[(dy+1)*3+(dx+1)] * s[(i+dy)*ncols+(j+dx)] and an out-of-range
neighbour contributes exactly zero. -/
def specConvSum (s : ℤ → ℚ) (i j ncols nrows : ℤ) (w : ℤ → ℚ) : ℚ :=
  ∑ dy ∈ Finset.Icc (-1 : ℤ) 1, ∑ dx ∈ Finset.Icc (-1 : ℤ) 1,
    if 0 ≤ i + dy ∧ i + dy < nrows ∧ 0 ≤ j + dx ∧ j + dx < ncols then
      w ((dy + 1) * 3 + (dx + 1)) * s ((i + dy) * ncols + (j + dx))
    else 0

/-- Reading the source buffer, the C expression s[k], with its bounds
obligation made explicit: some value when 0 <= k < length, none for an
out-of-range access (which would be undefined behaviour). -/
def readS (s : List ℚ) (k : ℤ) : Option ℚ :=
  if h : 0 ≤ k ∧ k.toNat < s.length then some (s.get ⟨k.toNat, h.2⟩) else none

/-- convSum with every read of the source buffer routed through readS, so
that an out-of-range read poisons the whole result. -/
def convSumChecked (s : List ℚ) (i j ncols nrows : ℤ) (w : ℤ → ℚ) :
    Option ℚ :=
  offs.foldlM (fun t y =>
    offs.foldlM (fun t x =>
      if 0 ≤ i + y ∧ i + y < nrows ∧ 0 ≤ j + x ∧ j + x < ncols then
        (readS s ((i + y) * ncols + (j + x))).map
          (fun v => t + w ((y + 1) * 3 + (x + 1)) * v)
      else some t) t) 0

/-- sobel_filtered_pixel with bounds-checked buffer reads: none exactly when
some read of the source buffer would be out of range. -/
noncomputable def sobel_filtered_pixelChecked (s : List ℚ)
    (i j ncols nrows : ℤ) (gx gy : ℤ → ℚ) : Option ℝ :=
  (convSumChecked s i j ncols nrows gx).bind (fun t =>
    (convSumChecked s i j ncols nrows gy).map (fun ty =>
      Real.sqrt ((t * t + ty * ty : ℚ) : ℝ)))

/-- Truncation toward zero of a real: the C conversion of a double to an
integer type keeps the integral part. -/
noncomputable def truncToZero (q : ℝ) : ℤ := if q < 0 then -⌊-q⌋ else ⌊q⌋

/-- The C cast (unsigned char)q of a double q: defined exactly when the
truncated value is representable in [0,255]; for anything else the
conversion is undefined behaviour (none).  No wrapping and no saturation. -/
noncomputable def castToByte (q : ℝ) : Option ℤ :=
  if 0 ≤ truncToZero q ∧ truncToZero q ≤ 255 then some (truncToZero q)
  else none

/-- Output quantisation of both main functions:
out_data_bytes[i] = (unsigned char)(out_data_floats[i] * 255.0).  For a
binary32 value f the product f * 255.0 is exact in binary64 (a 24-bit
significand times 255 fits in 32 bits), so the product is not rounded. -/
noncomputable def quantize (g : ℝ) : Option ℤ := castToByte (g * 255)

/-- Output-buffer initialisation of the GPU main (lines 152-153):
out_data_floats[i] = 1.0 for every i < nvalues. -/
def initOutput (d : ℕ → ℝ) (n : ℕ) : ℕ → ℝ :=
  (List.range n).foldl (fun d i => writePix d i 1) d

/-- Round-to-nearest with ties to even of the fraction num/den (den > 0,
num >= 0) to an integer; the IEEE-754 default rounding of the hardware the
converters run on. -/
def rneInt (num den : ℤ) : ℤ :=
  let q := num / den
  let r := num % den
  if 2 * r < den then q
  else if den < 2 * r then q + 1
  else if q % 2 = 0 then q else q + 1

/-- Multiplication of the fraction num/den by 2^k, keeping integer
numerator and denominator (den > 0). -/
def mulPow2 (num den : ℤ) (k : ℤ) : ℤ × ℤ :=
  if 0 ≤ k then (num * 2 ^ k.toNat, den) else (num, den * 2 ^ (-k).toNat)

/-- Binary exponent of the positive fraction num/den: the largest e in
[-9, 9] with 2^e <= num/den.  Every value rounded by the converter model
lies between 2^-9 and 2^9, so the fixed search range is exhaustive. -/
def findExp2 (num den : ℤ) : ℤ :=
  (List.range 19).foldl (fun acc k =>
    let e : ℤ := (k : ℤ) - 9
    let p := mulPow2 1 1 e
    if p.1 * den ≤ num * p.2 then e else acc) (-9)

/-- Rounding of the nonnegative fraction num/den to the nearest (ties to
even) floating-point value with prec significand bits, returned as a
fraction with power-of-two denominator.  Exponent limits of binary32 and
binary64 are immaterial: every value rounded here is far from them. -/
def roundFl (prec : ℕ) (num den : ℤ) : ℤ × ℤ :=
  if num = 0 then (0, 1)
  else
    let e := findExp2 num den
    let s := mulPow2 num den ((prec : ℤ) - 1 - e)
    let m := rneInt s.1 s.2
    mulPow2 m 1 (e - ((prec : ℤ) - 1))

/-- The double constant ONE_OVER_255 of both main functions: the decimal
literal 0.003921568627451 rounded to binary64. -/
def oneOver255f64 : ℤ × ℤ := roundFl 53 3921568627451 (10 ^ 15)

/-- in_data_floats[i] = (float)in_data_bytes[i] * ONE_OVER_255: the byte is
exact as a float, the product is a binary64 multiply, and the store into the
float array rounds the product to binary32. -/
def byteToFloat (b : ℕ) : ℤ × ℤ :=
  let p := roundFl 53 ((b : ℤ) * oneOver255f64.1) oneOver255f64.2
  roundFl 24 p.1 p.2

/-- out_data_bytes[i] = (unsigned char)(f * 255.0) for the binary32 value f
given as the fraction nf/df: the product is exact in binary64 and the cast
truncates; every round-trip value stays inside [0,256), where the cast is
defined. -/
def floatToByte (nf df : ℤ) : ℤ := nf * 255 / df

/-- Input path hard coded at the top of both files. -/
def input_fname : String := "../data/zebra-gray-int8-4x"

/-- Output path hard coded at the top of both files. -/
def output_fname : String := "../data/processed-raw-int8-4x-cpu.dat"

/-- The file-system behaviour a run observes: whether fopen of the input
succeeds, how many of the requested nvalues bytes fread returns, and how
many bytes fwrite accepts. -/
structure RunEnv where
  openOk : Bool
  bytesRead : ℕ
  bytesWritten : ℕ

/-- Observable end of a run: a process exit code, or undefined behaviour. -/
inductive RunOutcome where
  | exitCode : ℤ → RunOutcome
  | undefinedBehaviour : RunOutcome
deriving DecidableEq

/-- Control flow of main in the CPU file restricted to its file I/O: the
fopen null check (lines 135-139), the short-read check (140-145), and the
short-write check (179-184), with the printf transcript.  The timing output
of the sweep loop is omitted.  Falling off the end of main yields exit
code 0. -/
def cpuMainEffects (env : RunEnv) (nvalues : ℕ) : RunOutcome × List String :=
  if env.openOk = false then
    (RunOutcome.exitCode 1,
      [" Error opening the input file: " ++ input_fname ++ " \n"])
  else if env.bytesRead ≠ nvalues then
    (RunOutcome.exitCode 1, ["Error reading input file. \n"])
  else if env.bytesWritten ≠ nvalues then
    (RunOutcome.exitCode 1,
      [" Read data from the file " ++ input_fname ++ " \n",
       "Error writing output file. \n"])
  else
    (RunOutcome.exitCode 0,
      [" Read data from the file " ++ input_fname ++ " \n",
       " Wrote the output file " ++ output_fname ++ " \n"])

/-- Control flow of main in the GPU file restricted to its file I/O.  Unlike
the CPU file, this main never checks the FILE pointer returned by fopen
(line 129): with a missing input file the immediate fread from the null
stream is undefined behaviour.  The GPU-configuration printf and the device
error paths are omitted (the device is assumed healthy). -/
def gpuMainEffects (env : RunEnv) (nvalues : ℕ) : RunOutcome × List String :=
  if env.openOk = false then (RunOutcome.undefinedBehaviour, [])
  else if env.bytesRead ≠ nvalues then
    (RunOutcome.exitCode 1, ["Error reading input file. \n"])
  else if env.bytesWritten ≠ nvalues then
    (RunOutcome.exitCode 1,
      [" Read data from the file " ++ input_fname ++ " \n",
       "Error writing output file. \n"])
  else
    (RunOutcome.exitCode 0,
      [" Read data from the file " ++ input_fname ++ " \n",
       " Wrote the output file " ++ output_fname ++ " \n"])

/-- Value a driver stores at linear index k, through the CPU pixel function:
the pixel at row k / ncols and column k % ncols. -/
noncomputable def evalIdxCpu (inp : ℤ → ℚ) (ncols nrows k : ℕ) : ℝ :=
  sobel_filtered_pixel_cpu inp ((k / ncols : ℕ) : ℤ) ((k % ncols : ℕ) : ℤ)
    ncols nrows gxF gyF

/-- Value a driver stores at linear index k, through the GPU pixel function. -/
noncomputable def evalIdxGpu (inp : ℤ → ℚ) (ncols nrows k : ℕ) : ℝ :=
  sobel_filtered_pixel_gpu inp ((k / ncols : ℕ) : ℤ) ((k % ncols : ℕ) : ℤ)
    ncols nrows gxF gyF

section FoldWrite

/-- Reading one cell after a fold of writes: if some step of the fold wrote
value V at cell k, the result holds V there; if no step touched cell k, the
initial buffer shows through. -/
lemma foldl_write_apply {α : Type} (P : α → ℕ → Prop) (V : ℝ) (k : ℕ) :
    ∀ (l : List α) (step : (ℕ → ℝ) → α → (ℕ → ℝ)) (d : ℕ → ℝ),
      (∀ d a, a ∈ l → P a k → step d a k = V) →
      (∀ d a, a ∈ l → ¬ P a k → step d a k = d k) →
      ((∃ a ∈ l, P a k) → (l.foldl step d) k = V) ∧
      ((∀ a ∈ l, ¬ P a k) → (l.foldl step d) k = d k) := by
  intro l
  induction l with
  | nil =>
    intro step d _ _
    exact ⟨fun h => absurd h (by simp), fun _ => rfl⟩
  | cons a l ih =>
    intro step d h1 h2
    have h1t : ∀ d b, b ∈ l → P b k → step d b k = V :=
      fun d b hb => h1 d b (List.mem_cons_of_mem _ hb)
    have h2t : ∀ d b, b ∈ l → ¬ P b k → step d b k = d k :=
      fun d b hb => h2 d b (List.mem_cons_of_mem _ hb)
    constructor
    · intro hex
      rw [List.foldl_cons]
      by_cases hc : ∃ b ∈ l, P b k
      · exact (ih step (step d a) h1t h2t).1 hc
      · push_neg at hc
        have hPa : P a k := by
          rcases hex with ⟨b, hb, hP⟩
          rcases List.mem_cons.mp hb with rfl | hb
          · exact hP
          · exact absurd hP (hc b hb)
        rw [(ih step (step d a) h1t h2t).2 hc]
        exact h1 d a (List.mem_cons_self _ _) hPa
    · intro hnone
      rw [List.foldl_cons, (ih step (step d a) h1t h2t).2
        (fun b hb => hnone b (List.mem_cons_of_mem _ hb))]
      exact h2 d a (List.mem_cons_self _ _) (hnone a (List.mem_cons_self _ _))

end FoldWrite

/-- Row-major index arithmetic: the cell i*ncols+j decodes back to row i and
column j whenever j < ncols. -/
lemma rowKey_div_mod (i j ncols : ℕ) (hj : j < ncols) :
    (i * ncols + j) / ncols = i ∧ (i * ncols + j) % ncols = j := by
  have h0 : 0 < ncols := lt_of_le_of_lt (Nat.zero_le _) hj
  constructor
  · rw [Nat.mul_comm, Nat.mul_add_div h0, Nat.div_eq_of_lt hj, Nat.add_zero]
  · rw [Nat.mul_comm, Nat.mul_add_mod, Nat.mod_eq_of_lt hj]

/-- Effect of one row of the CPU sweep on one cell: the row fills exactly the
cells of [i*ncols, i*ncols+ncols) with the per-pixel value. -/
lemma cpuRow_apply (inp : ℤ → ℚ) (ncols nrows : ℕ) (d : ℕ → ℝ) (i k : ℕ) :
    cpuRow inp ncols nrows d i k =
      if i * ncols ≤ k ∧ k < i * ncols + ncols
      then evalIdxCpu inp ncols nrows k else d k := by
  have base := foldl_write_apply (fun j k => k = i * ncols + j)
      (evalIdxCpu inp ncols nrows k) k (List.range ncols)
      (fun d j => writePix d (i * ncols + j)
        (sobel_filtered_pixel_cpu inp (i : ℤ) (j : ℤ) (ncols : ℤ) (nrows : ℤ)
          gxF gyF)) d
      (by
        intro d j hj hP
        have hjlt : j < ncols := List.mem_range.mp hj
        obtain ⟨hd, hm⟩ := rowKey_div_mod i j ncols hjlt
        simp only [writePix]
        rw [if_pos hP, evalIdxCpu, hP, hd, hm])
      (by
        intro d j hj hP
        simp only [writePix]
        rw [if_neg hP])
  by_cases hk : i * ncols ≤ k ∧ k < i * ncols + ncols
  · rw [if_pos hk, cpuRow]
    exact base.1 ⟨k - i * ncols, List.mem_range.mpr (by omega), by omega⟩
  · rw [if_neg hk, cpuRow]
    exact base.2 (by
      intro j hj hP
      have := List.mem_range.mp hj
      omega)

/-- Effect of a scheduled sweep on one cell: a cell belonging to some row of
the schedule holds the per-pixel value, any other cell is untouched. -/
lemma do_sobel_filteringSched_apply (inp : ℤ → ℚ) (ncols nrows : ℕ)
    (sched : List ℕ) (d : ℕ → ℝ) (k : ℕ) :
    do_sobel_filteringSched inp d ncols nrows sched k =
      if ∃ i ∈ sched, i * ncols ≤ k ∧ k < i * ncols + ncols
      then evalIdxCpu inp ncols nrows k else d k := by
  have base := foldl_write_apply (fun i k => i * ncols ≤ k ∧ k < i * ncols + ncols)
      (evalIdxCpu inp ncols nrows k) k sched (cpuRow inp ncols nrows) d
      (fun d i _ hP => by rw [cpuRow_apply, if_pos hP])
      (fun d i _ hP => by rw [cpuRow_apply, if_neg hP])
  by_cases hk : ∃ i ∈ sched, i * ncols ≤ k ∧ k < i * ncols + ncols
  · rw [if_pos hk, do_sobel_filteringSched]
    exact base.1 hk
  · rw [if_neg hk, do_sobel_filteringSched]
    push_neg at hk
    exact base.2 (fun i hi => by
      intro hP
      exact absurd hP.2 (not_lt.mpr ((hk i hi hP.1))))

/-- With a schedule containing every row of the image, the sweep stores the
per-pixel value at every in-range cell, whatever the initial buffer held. -/
lemma do_sobel_filteringSched_covers (inp : ℤ → ℚ) (ncols nrows : ℕ)
    (sched : List ℕ) (d : ℕ → ℝ) (k : ℕ)
    (hs : ∀ i < nrows, i ∈ sched) (hk : k < nrows * ncols) :
    do_sobel_filteringSched inp d ncols nrows sched k =
      evalIdxCpu inp ncols nrows k := by
  have hc : 0 < ncols := by
    rcases Nat.eq_zero_or_pos ncols with h0 | h0
    · rw [h0, Nat.mul_zero] at hk; omega
    · exact h0
  rw [do_sobel_filteringSched_apply, if_pos]
  refine ⟨k / ncols, hs _ ((Nat.div_lt_iff_lt_mul hc).mpr hk), Nat.div_mul_le_self _ _, ?_⟩
  have h2 := (Nat.div_lt_iff_lt_mul hc).mp (Nat.lt_succ_self (k / ncols))
  calc k < (k / ncols + 1) * ncols := h2
    _ = k / ncols * ncols + ncols := by ring

/-- The sequential sweep of the source (row order 0,1,...,nrows-1) stores
the per-pixel value at every in-range cell. -/
lemma do_sobel_filtering_covers (inp : ℤ → ℚ) (ncols nrows : ℕ)
    (d : ℕ → ℝ) (k : ℕ) (hk : k < nrows * ncols) :
    do_sobel_filtering inp d ncols nrows k = evalIdxCpu inp ncols nrows k :=
  do_sobel_filteringSched_covers inp ncols nrows (List.range nrows) d k
    (fun i hi => List.mem_range.mpr hi) hk

/-- The sweep never writes outside [0, nrows*ncols). -/
lemma do_sobel_filtering_untouched (inp : ℤ → ℚ) (ncols nrows : ℕ)
    (d : ℕ → ℝ) (k : ℕ) (hk : nrows * ncols ≤ k) :
    do_sobel_filtering inp d ncols nrows k = d k := by
  rw [do_sobel_filtering, do_sobel_filteringSched_apply, if_neg]
  rintro ⟨i, hi, h1, h2⟩
  have hilt : i < nrows := List.mem_range.mp hi
  have h3 : i * ncols + ncols = (i + 1) * ncols := by ring
  have h4 : (i + 1) * ncols ≤ nrows * ncols := Nat.mul_le_mul_right _ hilt
  linarith

/-- Effect of one striding unit on one cell: the unit fills exactly the cells
k of [idx, n) with k congruent to idx modulo the stride. -/
lemma gpuUnitRun_measured (s : ℤ → ℚ) (nrows ncols n stride : ℕ) :
    ∀ m idx d k, n - idx = m →
      gpuUnitRun s d n nrows ncols stride idx k =
        if idx ≤ k ∧ k < n ∧ 0 < stride ∧ stride ∣ k - idx
        then evalIdxGpu s ncols nrows k else d k := by
  intro m
  induction m using Nat.strong_induction_on with
  | _ m ih =>
    intro idx d k hm
    rw [gpuUnitRun]
    split
    · rename_i h
      have hkey : idx / ncols * ncols + idx % ncols = idx := Nat.div_add_mod' idx ncols
      rw [hkey, ih (n - (idx + stride)) (by omega) (idx + stride) _ k rfl]
      by_cases hk : k = idx
      · subst hk
        rw [if_neg (by omega), if_pos ⟨le_refl _, h.1, h.2, by simp⟩]
        simp [writePix, evalIdxGpu]
      · have hw : writePix d idx
            (sobel_filtered_pixel_gpu s ((idx / ncols : ℕ) : ℤ)
              ((idx % ncols : ℕ) : ℤ) ncols nrows gxF gyF) k = d k := by
          simp only [writePix]
          rw [if_neg hk]
        by_cases hcond : idx ≤ k ∧ k < n ∧ 0 < stride ∧ stride ∣ k - idx
        · rw [if_pos hcond]
          obtain ⟨h1, h2, h3, c, hc⟩ := hcond
          have hik : idx < k := lt_of_le_of_ne h1 (Ne.symm hk)
          rcases c with _ | c
          · omega
          · have hc2 : k - idx = stride * c + stride := by
              rw [hc, Nat.mul_succ]
            have hA : k - (idx + stride) = stride * c := by
              generalize stride * c = A at hc2 ⊢
              omega
            rw [if_pos ⟨by generalize hG : stride * c = A at hc2; omega, h2, h3,
              ⟨c, hA⟩⟩]
        · rw [if_neg hcond, hw, if_neg]
          rintro ⟨h1, h2, h3, c, hc⟩
          apply hcond
          refine ⟨by omega, h2, h3, c + 1, ?_⟩
          have hc2 : stride * (c + 1) = stride * c + stride := by ring
          generalize stride * c = A at hc hc2 ⊢
          omega
    · rename_i h
      rw [if_neg]
      rintro ⟨h1, h2, h3, _⟩
      omega

/-- Closed form of the unit loop effect. -/
lemma gpuUnitRun_apply (s : ℤ → ℚ) (d : ℕ → ℝ) (n nrows ncols stride idx k : ℕ) :
    gpuUnitRun s d n nrows ncols stride idx k =
      if idx ≤ k ∧ k < n ∧ 0 < stride ∧ stride ∣ k - idx
      then evalIdxGpu s ncols nrows k else d k :=
  gpuUnitRun_measured s nrows ncols n stride (n - idx) idx d k rfl

/-- Effect of the fold over the threads of one block on one cell. -/
lemma gpuBlock_apply (s : ℤ → ℚ) (n nrows ncols stride tpb b : ℕ)
    (d : ℕ → ℝ) (k : ℕ) :
    ((List.range tpb).foldl (fun d t =>
        gpuUnitRun s d n nrows ncols stride (t + b * tpb)) d) k =
      if ∃ t ∈ List.range tpb, t + b * tpb ≤ k ∧ k < n ∧ 0 < stride ∧
          stride ∣ k - (t + b * tpb)
      then evalIdxGpu s ncols nrows k else d k := by
  have base := foldl_write_apply
      (fun t k => t + b * tpb ≤ k ∧ k < n ∧ 0 < stride ∧ stride ∣ k - (t + b * tpb))
      (evalIdxGpu s ncols nrows k) k (List.range tpb)
      (fun d t => gpuUnitRun s d n nrows ncols stride (t + b * tpb)) d
      (fun d t _ hP => by
        dsimp only at hP ⊢
        rw [gpuUnitRun_apply, if_pos hP])
      (fun d t _ hP => by
        dsimp only at hP ⊢
        rw [gpuUnitRun_apply, if_neg hP])
  by_cases hk : ∃ t ∈ List.range tpb, t + b * tpb ≤ k ∧ k < n ∧ 0 < stride ∧
      stride ∣ k - (t + b * tpb)
  · rw [if_pos hk]
    exact base.1 hk
  · rw [if_neg hk]
    push_neg at hk
    exact base.2 (fun t ht => by
      intro hP
      exact absurd hP.2.2.2 ((hk t ht hP.1 hP.2.1 hP.2.2.1)))

/-- Every unit id below the stride is reached by some (block, thread) pair. -/
lemma unit_id_split (blocks tpb u : ℕ) (hu : u < tpb * blocks) :
    ∃ b < blocks, ∃ t < tpb, t + b * tpb = u := by
  have htpb : 0 < tpb := by
    rcases Nat.eq_zero_or_pos tpb with h0 | h0
    · rw [h0, Nat.zero_mul] at hu; omega
    · exact h0
  refine ⟨u / tpb, ?_, u % tpb, Nat.mod_lt _ htpb, Nat.mod_add_div' u tpb⟩
  rw [Nat.div_lt_iff_lt_mul htpb, Nat.mul_comm]
  exact hu

/-- Effect of the whole kernel launch on one in-range cell: with at least one
execution unit, cell k holds the per-pixel value at (k / ncols, k % ncols). -/
lemma sobel_kernel_gpu_covers (s : ℤ → ℚ) (d : ℕ → ℝ)
    (n nrows ncols blocks tpb k : ℕ) (hb : 0 < tpb * blocks) (hk : k < n) :
    sobel_kernel_gpu s d n nrows ncols blocks tpb k =
      evalIdxGpu s ncols nrows k := by
  have base := foldl_write_apply
      (fun b k => ∃ t ∈ List.range tpb, t + b * tpb ≤ k ∧ k < n ∧
        0 < tpb * blocks ∧ tpb * blocks ∣ k - (t + b * tpb))
      (evalIdxGpu s ncols nrows k) k (List.range blocks)
      (fun d b => (List.range tpb).foldl (fun d t =>
        gpuUnitRun s d n nrows ncols (tpb * blocks) (t + b * tpb)) d) d
      (fun d b _ hP => by
        dsimp only at hP ⊢
        rw [gpuBlock_apply, if_pos hP])
      (fun d b _ hP => by
        dsimp only at hP ⊢
        rw [gpuBlock_apply, if_neg hP])
  rw [sobel_kernel_gpu]
  refine base.1 ?_
  set stride := tpb * blocks with hstride
  obtain ⟨b, hblt, t, htlt, htb⟩ :=
    unit_id_split blocks tpb (k % stride) (Nat.mod_lt _ hb)
  refine ⟨b, List.mem_range.mpr hblt, t, List.mem_range.mpr htlt, ?_, hk, hb, ?_⟩
  · rw [htb]
    exact Nat.mod_le _ _
  · rw [htb]
    exact ⟨k / stride, by
      have := Nat.div_add_mod k stride
      generalize stride * (k / stride) = A at *
      omega⟩

/-- A launch with no execution units (blocks * tpb = 0) writes nothing. -/
lemma sobel_kernel_gpu_no_units (s : ℤ → ℚ) (d : ℕ → ℝ)
    (n nrows ncols blocks tpb : ℕ) (h0 : blocks * tpb = 0) :
    sobel_kernel_gpu s d n nrows ncols blocks tpb = d := by
  have hfix : ∀ (l : List ℕ) (d : ℕ → ℝ), l.foldl (fun d (_ : ℕ) => d) d = d := by
    intro l
    induction l with
    | nil => intro d; rfl
    | cons a l ih => intro d; exact ih d
  rcases Nat.mul_eq_zero.mp h0 with hb | ht
  · rw [sobel_kernel_gpu, hb]
    rfl
  · rw [sobel_kernel_gpu, ht]
    exact hfix (List.range blocks) d

/-- Reading one cell after the output-buffer initialisation of the GPU main:
1.0 inside [0, n), the previous contents outside. -/
lemma initOutput_apply (d : ℕ → ℝ) (n k : ℕ) :
    initOutput d n k = if k < n then 1 else d k := by
  have base := foldl_write_apply (fun i k => k = i) (1 : ℝ) k (List.range n)
      (fun d i => writePix d i 1) d
      (fun d i _ hP => by
        simp only [writePix]
        rw [if_pos hP])
      (fun d i _ hP => by
        simp only [writePix]
        rw [if_neg hP])
  by_cases hk : k < n
  · rw [if_pos hk, initOutput]
    exact base.1 ⟨k, List.mem_range.mpr hk, rfl⟩
  · rw [if_neg hk, initOutput]
    exact base.2 (fun i hi hP => hk (hP ▸ List.mem_range.mp hi))

/-- A fold that updates the two components of a pair independently is the
pair of the two component folds. -/
lemma foldl_pair_split {α : Type} (F : ℚ × ℚ → α → ℚ × ℚ)
    (f g : ℚ → α → ℚ) (hF : ∀ p a, F p a = (f p.1 a, g p.2 a)) :
    ∀ (l : List α) (p : ℚ × ℚ), l.foldl F p = (l.foldl f p.1, l.foldl g p.2) := by
  intro l
  induction l with
  | nil => intro p; rfl
  | cons a l ih =>
    intro p
    rw [List.foldl_cons, hF, ih, List.foldl_cons, List.foldl_cons]

/-- The fused Gx/Gy loop nest of the GPU pixel function computes the pair of
the two separate loop nests of the CPU pixel function. -/
lemma convPair_split (s : ℤ → ℚ) (i j ncols nrows : ℤ) (gx gy : ℤ → ℚ) :
    offs.foldl (fun p y =>
      offs.foldl (fun p x =>
        if 0 ≤ i + y ∧ i + y < nrows ∧ 0 ≤ j + x ∧ j + x < ncols then
          (p.1 + gx ((y + 1) * 3 + (x + 1)) * s ((i + y) * ncols + (j + x)),
           p.2 + gy ((y + 1) * 3 + (x + 1)) * s ((i + y) * ncols + (j + x)))
        else p) p) ((0 : ℚ), (0 : ℚ)) =
      (convSum s i j ncols nrows gx, convSum s i j ncols nrows gy) := by
  rw [convSum, convSum]
  refine foldl_pair_split _ _ _ (fun p y => ?_) offs (0, 0)
  exact foldl_pair_split _ _ _ (fun p x => by split <;> rfl) offs p

/-- The two sobel_filtered_pixel implementations (CPU file and GPU file) are
the same function. -/
lemma sobel_filtered_pixel_cpu_eq_gpu (s : ℤ → ℚ) (i j ncols nrows : ℤ)
    (gx gy : ℤ → ℚ) :
    sobel_filtered_pixel_cpu s i j ncols nrows gx gy =
      sobel_filtered_pixel_gpu s i j ncols nrows gx gy := by
  simp only [sobel_filtered_pixel_cpu, sobel_filtered_pixel_gpu]
  rw [convPair_split]

/-- The per-index values of the two drivers agree. -/
lemma evalIdxCpu_eq_gpu (inp : ℤ → ℚ) (ncols nrows k : ℕ) :
    evalIdxCpu inp ncols nrows k = evalIdxGpu inp ncols nrows k := by
  rw [evalIdxCpu, evalIdxGpu, sobel_filtered_pixel_cpu_eq_gpu]

/-- A unit id below the stride visits a cell k of the image exactly when k
lies in its residue class: u <= k, k in range, stride divides k - u; for
k < n this says u = k mod stride. -/
lemma covers_iff_mod (n stride u k : ℕ) (hu : u < stride) (hkn : k < n) :
    (u ≤ k ∧ k < n ∧ 0 < stride ∧ stride ∣ k - u) ↔ k % stride = u := by
  constructor
  · rintro ⟨h1, _, _, c, hc⟩
    have hk : k = u + stride * c := by
      generalize stride * c = A at hc ⊢
      omega
    rw [hk, Nat.add_mul_mod_self_left, Nat.mod_eq_of_lt hu]
  · rintro rfl
    refine ⟨Nat.mod_le _ _, hkn, lt_of_le_of_lt (Nat.zero_le _) hu, k / stride, ?_⟩
    have := Nat.div_add_mod k stride
    generalize stride * (k / stride) = A at *
    omega

/-- Count of a cell in the visit list of one striding unit: one if the unit
covers the cell, zero otherwise. -/
lemma count_unitIndices (n stride : ℕ) :
    ∀ m idx k, n - idx = m →
      (unitIndices n stride idx).count k =
        if idx ≤ k ∧ k < n ∧ 0 < stride ∧ stride ∣ k - idx then 1 else 0 := by
  intro m
  induction m using Nat.strong_induction_on with
  | _ m ih =>
    intro idx k hm
    rw [unitIndices]
    split
    · rename_i h
      rw [List.count_cons, ih (n - (idx + stride)) (by omega) (idx + stride) k rfl]
      by_cases hk : k = idx
      · subst hk
        have hL : ¬(k + stride ≤ k ∧ k < n ∧ 0 < stride ∧
            stride ∣ k - (k + stride)) := by
          rintro ⟨a, -, -, -⟩
          omega
        have hR : k ≤ k ∧ k < n ∧ 0 < stride ∧ stride ∣ k - k :=
          ⟨le_refl _, h.1, h.2, by simp⟩
        rw [if_neg hL, if_pos hR]
        simp
      · have hbeq : (idx == k) = false := by
          simp
          omega
        by_cases hcond : idx ≤ k ∧ k < n ∧ 0 < stride ∧ stride ∣ k - idx
        · rw [if_pos hcond]
          obtain ⟨h1, h2, h3, c, hc⟩ := hcond
          have hik : idx < k := lt_of_le_of_ne h1 (Ne.symm hk)
          rcases c with _ | c
          · omega
          · have hc2 : k - idx = stride * c + stride := by
              rw [hc, Nat.mul_succ]
            have hA : k - (idx + stride) = stride * c := by
              generalize stride * c = A at hc2 ⊢
              omega
            have hstep : idx + stride ≤ k := by
              generalize hG : stride * c = A at hc2
              omega
            rw [if_pos ⟨hstep, h2, h3, ⟨c, hA⟩⟩]
            simp [hbeq]
        · have hL : ¬(idx + stride ≤ k ∧ k < n ∧ 0 < stride ∧
              stride ∣ k - (idx + stride)) := by
            rintro ⟨h1, h2, h3, c, hc⟩
            apply hcond
            refine ⟨by omega, h2, h3, c + 1, ?_⟩
            have hc2 : stride * (c + 1) = stride * c + stride := by ring
            generalize stride * c = A at hc hc2 ⊢
            omega
          rw [if_neg hcond, if_neg hL]
          simp [hbeq]
    · rename_i h
      rw [if_neg]
      · rfl
      rintro ⟨h1, h2, h3, -⟩
      omega

/-- Count of a cell across the visit lists of a list of unit ids below the
stride: the number of occurrences of the cell's residue among the ids. -/
lemma count_flatMap_units (n stride k : ℕ) (hk : k < n) :
    ∀ us : List ℕ, (∀ u ∈ us, u < stride) →
      (us.flatMap (unitIndices n stride)).count k = us.count (k % stride) := by
  intro us
  induction us with
  | nil => intro _; rfl
  | cons u us ih =>
    intro hus
    have hu : u < stride := hus u (List.mem_cons_self _ _)
    rw [List.flatMap_cons, List.count_append,
      count_unitIndices n stride (n - u) u k rfl,
      if_congr (covers_iff_mod n stride u k hu hk) rfl rfl, List.count_cons,
      ih (fun v hv => hus v (List.mem_cons_of_mem _ hv))]
    by_cases he : k % stride = u
    · rw [if_pos he, if_pos (by simp only [beq_iff_eq]; omega)]
      omega
    · rw [if_neg he, if_neg (by simp only [beq_iff_eq]; omega)]
      omega

/-- A cell outside the image is never visited. -/
lemma count_flatMap_units_zero (n stride k : ℕ) (hk : n ≤ k) :
    ∀ us : List ℕ, (us.flatMap (unitIndices n stride)).count k = 0 := by
  intro us
  induction us with
  | nil => rfl
  | cons u us ih =>
    rw [List.flatMap_cons, List.count_append,
      count_unitIndices n stride (n - u) u k rfl, if_neg (by omega), ih]

/-- The block/thread enumeration of unit ids is exactly [0, blocks*tpb). -/
lemma range_mul_flatMap (blocks tpb : ℕ) :
    (List.range blocks).flatMap
        (fun b => (List.range tpb).map (fun t => t + b * tpb)) =
      List.range (blocks * tpb) := by
  induction blocks with
  | zero => simp
  | succ blocks ih =>
    rw [List.range_succ, List.flatMap_append, ih, Nat.succ_mul, List.range_add]
    simp only [List.flatMap_cons, List.flatMap_nil, List.append_nil]
    exact congrArg _ (List.map_congr_left (fun t _ => Nat.add_comm _ _))

/-- The visit list of the launch is the concatenation of the unit visit
lists over all unit ids in [0, blocks*tpb). -/
lemma gpuVisited_eq (n blocks tpb : ℕ) :
    gpuVisited n blocks tpb =
      (List.range (blocks * tpb)).flatMap (unitIndices n (tpb * blocks)) := by
  rw [gpuVisited, ← range_mul_flatMap]
  rw [List.flatMap_assoc]
  refine congrArg _ (funext fun b => ?_)
  rw [List.flatMap_map]

/-- C3: for any n >= 1 and any launch shape with blocks >= 1 and tpb >= 1
(including launches smaller than n), the grid-stride scheme visits every
linear index of [0, n) exactly once across all units and no other index, and
the value the kernel stores at index k is the evaluator applied at row
k / ncols and column k % ncols. -/
theorem C3_grid_stride_coverage (n blocks tpb : ℕ)
    (hn : 1 ≤ n) (hb : 1 ≤ blocks) (ht : 1 ≤ tpb) :
    (∀ k, (gpuVisited n blocks tpb).count k = if k < n then 1 else 0) ∧
      (∀ (s : ℤ → ℚ) (d : ℕ → ℝ) (nrows ncols k : ℕ), k < n →
        sobel_kernel_gpu s d n nrows ncols blocks tpb k =
          sobel_filtered_pixel_gpu s ((k / ncols : ℕ) : ℤ)
            ((k % ncols : ℕ) : ℤ) (ncols : ℤ) (nrows : ℤ) gxF gyF) := by
  have hstride : 0 < tpb * blocks := Nat.mul_pos ht hb
  constructor
  · intro k
    rw [gpuVisited_eq]
    by_cases hk : k < n
    · rw [if_pos hk,
        count_flatMap_units n (tpb * blocks) k hk (List.range (blocks * tpb))
          (fun u hu => by
            rw [Nat.mul_comm]
            exact List.mem_range.mp hu)]
      exact List.count_eq_one_of_mem (List.nodup_range _)
        (List.mem_range.mpr (by
          rw [Nat.mul_comm blocks tpb]
          exact Nat.mod_lt _ hstride))
    · rw [if_neg hk]
      exact count_flatMap_units_zero n (tpb * blocks) k (by omega) _
  · intro s d nrows ncols k hk
    rw [sobel_kernel_gpu_covers s d n nrows ncols blocks tpb k hstride hk,
      evalIdxGpu]

/-- Witness for C3: n = 5 pixels, 2 blocks of 1 thread (3 fewer units than
pixels), cell 3 is visited once and holds the evaluator value at (3/5, 3%5)
for a 1x5 image with constant source. -/
theorem C3_grid_stride_coverage_witness :
    (gpuVisited 5 2 1).count 3 = 1 ∧
      sobel_kernel_gpu (fun _ => 1) (fun _ => 0) 5 1 5 2 1 3 =
        sobel_filtered_pixel_gpu (fun _ => 1) ((3 / 5 : ℕ) : ℤ)
          ((3 % 5 : ℕ) : ℤ) (5 : ℤ) (1 : ℤ) gxF gyF := by
  have h := C3_grid_stride_coverage 5 2 1 (by decide) (by decide) (by decide)
  exact ⟨(h.1 3).trans (by decide),
    h.2 (fun _ => 1) (fun _ => 0) 1 5 3 (by decide)⟩

/-- C9: the GPU driver initialises every cell of the output float buffer to
1.0 before the launch; a launch whose units cover no index (blocks * tpb = 0,
as with a first CLI argument that atoi parses as 0) leaves the whole buffer
at 1.0, and each byte subsequently written to the output file is
(unsigned char)(1.0 * 255.0) = 255. -/
theorem C9_no_units_white_output (s : ℤ → ℚ) (d : ℕ → ℝ)
    (n nrows ncols blocks tpb : ℕ) (h0 : blocks * tpb = 0)
    (k : ℕ) (hk : k < n) :
    sobel_kernel_gpu s (initOutput d n) n nrows ncols blocks tpb =
        initOutput d n ∧
      sobel_kernel_gpu s (initOutput d n) n nrows ncols blocks tpb k = 1 ∧
      quantize (sobel_kernel_gpu s (initOutput d n) n nrows ncols blocks tpb k)
        = some 255 := by
  have hker := sobel_kernel_gpu_no_units s (initOutput d n) n nrows ncols
    blocks tpb h0
  have hone : initOutput d n k = 1 := by
    rw [initOutput_apply, if_pos hk]
  refine ⟨hker, by rw [hker, hone], ?_⟩
  rw [hker, hone]
  have h255 : ((1 : ℝ) * 255) = ((255 : ℤ) : ℝ) := by norm_num
  have htr : truncToZero ((1 : ℝ) * 255) = 255 := by
    rw [truncToZero, if_neg (by norm_num), h255, Int.floor_intCast]
  rw [quantize, castToByte, if_pos (by rw [htr]; exact ⟨by norm_num, le_refl _⟩),
    htr]

/-- Witness for C9: a 0-block launch over 4 pixels, inspected at cell 2. -/
theorem C9_no_units_white_output_witness :
    sobel_kernel_gpu (fun _ => 1) (initOutput (fun _ => 0) 4) 4 2 2 0 7 =
        initOutput (fun _ => 0) 4 ∧
      sobel_kernel_gpu (fun _ => 1) (initOutput (fun _ => 0) 4) 4 2 2 0 7 2 = 1 ∧
      quantize (sobel_kernel_gpu (fun _ => 1) (initOutput (fun _ => 0) 4)
        4 2 2 0 7 2) = some 255 :=
  C9_no_units_white_output (fun _ => 1) (fun _ => 0) 4 2 2 0 7 (by decide)
    2 (by decide)

/-- C1: for a fixed source buffer and dimensions, the CPU sweep (under any
row schedule covering every row, which subsumes every OpenMP thread count,
and in particular the sequential do_sobel_filtering) and the GPU dispatch
(under any launch shape with at least one execution unit) store the same
value at every cell of the image, namely the per-pixel stencil value at
(k / ncols, k % ncols); the two drivers are equivalent embeddings of the
same per-pixel evaluator. -/
theorem C1_partition_independent (s : ℤ → ℚ) (nrows ncols : ℕ)
    (d₁ d₂ d₃ : ℕ → ℝ) (sched : List ℕ) (blocks tpb : ℕ)
    (hs : ∀ i < nrows, i ∈ sched) (hb : 0 < blocks * tpb)
    (k : ℕ) (hk : k < nrows * ncols) :
    do_sobel_filteringSched s d₁ ncols nrows sched k =
        sobel_kernel_gpu s d₂ (nrows * ncols) nrows ncols blocks tpb k ∧
      do_sobel_filtering s d₃ ncols nrows k =
        sobel_kernel_gpu s d₂ (nrows * ncols) nrows ncols blocks tpb k ∧
      sobel_kernel_gpu s d₂ (nrows * ncols) nrows ncols blocks tpb k =
        sobel_filtered_pixel_gpu s ((k / ncols : ℕ) : ℤ) ((k % ncols : ℕ) : ℤ)
          (ncols : ℤ) (nrows : ℤ) gxF gyF := by
  have hb2 : 0 < tpb * blocks := by rwa [Nat.mul_comm] at hb
  have hgpu := sobel_kernel_gpu_covers s d₂ (nrows * ncols) nrows ncols blocks
    tpb k hb2 hk
  have hcpu := do_sobel_filteringSched_covers s ncols nrows sched d₁ k hs hk
  have hcpu2 := do_sobel_filtering_covers s ncols nrows d₃ k hk
  refine ⟨?_, ?_, ?_⟩
  · rw [hcpu, hgpu, evalIdxCpu_eq_gpu]
  · rw [hcpu2, hgpu, evalIdxCpu_eq_gpu]
  · rw [hgpu, evalIdxGpu]

/-- Witness for C1: a concrete 2x2 image with source s(k) = k, the row
schedule [1, 0], a 2-block 1-thread launch, inspected at cell 3. -/
theorem C1_partition_independent_witness :
    do_sobel_filteringSched (fun k => (k : ℚ)) (fun _ => 0) 2 2 [1, 0] 3 =
        sobel_kernel_gpu (fun k => (k : ℚ)) (fun _ => 0) 4 2 2 2 1 3 ∧
      do_sobel_filtering (fun k => (k : ℚ)) (fun _ => 0) 2 2 3 =
        sobel_kernel_gpu (fun k => (k : ℚ)) (fun _ => 0) 4 2 2 2 1 3 ∧
      sobel_kernel_gpu (fun k => (k : ℚ)) (fun _ => 0) 4 2 2 2 1 3 =
        sobel_filtered_pixel_gpu (fun k => (k : ℚ)) ((3 / 2 : ℕ) : ℤ)
          ((3 % 2 : ℕ) : ℤ) (2 : ℤ) (2 : ℤ) gxF gyF :=
  C1_partition_independent (fun k => (k : ℚ)) 2 2 (fun _ => 0) (fun _ => 0)
    (fun _ => 0) [1, 0] 2 1 (by decide) (by decide) 3 (by decide)

/-- C10: the CPU sweep writes every image cell from the source alone and
never reads the destination: a repeated sweep into the same buffer equals a
single sweep (for any repetition count, as in the five timed runs of main),
and inside the image the result does not depend on the destination buffer's
prior contents. -/
theorem C10_sweep_idempotent (inp : ℤ → ℚ) (ncols nrows : ℕ) :
    (∀ d : ℕ → ℝ,
        do_sobel_filtering inp (do_sobel_filtering inp d ncols nrows)
            ncols nrows =
          do_sobel_filtering inp d ncols nrows) ∧
      (∀ (d : ℕ → ℝ) (m : ℕ),
        (fun b => do_sobel_filtering inp b ncols nrows)^[m + 1] d =
          do_sobel_filtering inp d ncols nrows) ∧
      (∀ (d d' : ℕ → ℝ) (k : ℕ), k < nrows * ncols →
        do_sobel_filtering inp d ncols nrows k =
          do_sobel_filtering inp d' ncols nrows k) := by
  have hidem : ∀ d : ℕ → ℝ,
      do_sobel_filtering inp (do_sobel_filtering inp d ncols nrows)
          ncols nrows =
        do_sobel_filtering inp d ncols nrows := by
    intro d
    funext k
    by_cases hk : k < nrows * ncols
    · rw [do_sobel_filtering_covers inp ncols nrows _ k hk,
        do_sobel_filtering_covers inp ncols nrows d k hk]
    · rw [do_sobel_filtering_untouched inp ncols nrows _ k (by omega)]
  refine ⟨hidem, ?_, ?_⟩
  · intro d m
    induction m with
    | zero => rfl
    | succ m ih =>
      rw [Function.iterate_succ_apply', ih]
      exact hidem d
  · intro d d' k hk
    rw [do_sobel_filtering_covers inp ncols nrows d k hk,
      do_sobel_filtering_covers inp ncols nrows d' k hk]

/-- Witness for C10 at a concrete instance: 2x2 image, source s(k) = k,
destination buffers constant 0 and constant 5, double sweep and a cell
comparison. -/
theorem C10_sweep_idempotent_witness :
    do_sobel_filtering (fun k => (k : ℚ))
        (do_sobel_filtering (fun k => (k : ℚ)) (fun _ => 0) 2 2) 2 2 =
      do_sobel_filtering (fun k => (k : ℚ)) (fun _ => 0) 2 2 ∧
    do_sobel_filtering (fun k => (k : ℚ)) (fun _ => 0) 2 2 2 =
      do_sobel_filtering (fun k => (k : ℚ)) (fun _ => 5) 2 2 2 :=
  ⟨(C10_sweep_idempotent (fun k => (k : ℚ)) 2 2).1 (fun _ => 0),
   (C10_sweep_idempotent (fun k => (k : ℚ)) 2 2).2.2 (fun _ => 0) (fun _ => 5)
     2 (by decide)⟩

/-- A monadic fold over Option whose every step succeeds is some of the
plain fold. -/
lemma foldlM_eq_some {α : Type} (g : ℚ → α → ℚ) :
    ∀ (l : List α) (f : ℚ → α → Option ℚ),
      (∀ b a, a ∈ l → f b a = some (g b a)) →
      ∀ b, l.foldlM f b = some (l.foldl g b) := by
  intro l
  induction l with
  | nil => intro f _ b; rfl
  | cons a l ih =>
    intro f h b
    rw [List.foldlM_cons, h b a (List.mem_cons_self _ _)]
    exact ih f (fun b a ha => h b a (List.mem_cons_of_mem _ ha)) (g b a)

/-- Under the caller's bounds and a correctly sized buffer, every read of the
checked accumulation loop is in range, so the loop returns some of the plain
loop run on the buffer. -/
lemma convSumChecked_eq (s : List ℚ) (i j ncols nrows : ℤ) (w : ℤ → ℚ)
    (hi : 0 ≤ i) (hi2 : i < nrows) (hj : 0 ≤ j) (hj2 : j < ncols)
    (hlen : (s.length : ℤ) = nrows * ncols) :
    convSumChecked s i j ncols nrows w =
      some (convSum (fun k => (readS s k).getD 0) i j ncols nrows w) := by
  rw [convSumChecked, convSum]
  refine foldlM_eq_some _ offs _ (fun b y hy => ?_) 0
  refine foldlM_eq_some _ offs _ (fun b x hx => ?_) b
  by_cases hc : 0 ≤ i + y ∧ i + y < nrows ∧ 0 ≤ j + x ∧ j + x < ncols
  · rw [if_pos hc, if_pos hc]
    obtain ⟨hc1, hc2, hc3, hc4⟩ := hc
    have hge : 0 ≤ (i + y) * ncols + (j + x) := by
      have h0 : 0 ≤ (i + y) * ncols := mul_nonneg hc1 (by omega)
      omega
    have hlt : (i + y) * ncols + (j + x) < (s.length : ℤ) := by
      rw [hlen]
      have h1 : (i + y) * ncols + (j + x) < (i + y) * ncols + ncols := by
        linarith
      have h2 : (i + y) * ncols + ncols = (i + y + 1) * ncols := by ring
      have h3 : (i + y + 1) * ncols ≤ nrows * ncols :=
        mul_le_mul_of_nonneg_right (by omega) (by omega)
      linarith
    have hcond2 : 0 ≤ (i + y) * ncols + (j + x) ∧
        ((i + y) * ncols + (j + x)).toNat < s.length := by
      generalize hA : (i + y) * ncols + (j + x) = A at hge hlt
      exact ⟨hge, by omega⟩
    have hread : readS s ((i + y) * ncols + (j + x)) =
        some (s.get ⟨((i + y) * ncols + (j + x)).toNat, hcond2.2⟩) := by
      rw [readS, dif_pos hcond2]
    rw [hread]
    simp
  · rw [if_neg hc, if_neg hc]

/-- C5: with the caller-guaranteed bounds 0 <= i < nrows and 0 <= j < ncols
and a source buffer of length nrows*ncols, every read the evaluator performs
uses an index inside [0, nrows*ncols): the bounds-checked evaluator never
hits its out-of-range case, and its result is some of the plain evaluator
run on the buffer. -/
theorem C5_reads_in_bounds (s : List ℚ) (i j ncols nrows : ℤ) (gx gy : ℤ → ℚ)
    (hi : 0 ≤ i) (hi2 : i < nrows) (hj : 0 ≤ j) (hj2 : j < ncols)
    (hlen : (s.length : ℤ) = nrows * ncols) :
    sobel_filtered_pixelChecked s i j ncols nrows gx gy =
      some (sobel_filtered_pixel_cpu (fun k => (readS s k).getD 0)
        i j ncols nrows gx gy) := by
  rw [sobel_filtered_pixelChecked,
    convSumChecked_eq s i j ncols nrows gx hi hi2 hj hj2 hlen,
    convSumChecked_eq s i j ncols nrows gy hi hi2 hj hj2 hlen]
  rfl

/-- Witness for C5: the 2x2 buffer [1,2,3,4] at the corner pixel (0,0). -/
theorem C5_reads_in_bounds_witness :
    sobel_filtered_pixelChecked [1, 2, 3, 4] 0 0 2 2 gxF gyF =
      some (sobel_filtered_pixel_cpu
        (fun k => (readS [1, 2, 3, 4] k).getD 0) 0 0 2 2 gxF gyF) :=
  C5_reads_in_bounds [1, 2, 3, 4] 0 0 2 2 gxF gyF (by norm_num) (by norm_num)
    (by norm_num) (by norm_num) (by norm_num)

/-- Pulling the accumulator out of a guarded accumulation step. -/
lemma ite_acc (c : Prop) [Decidable c] (t a : ℚ) :
    (if c then t + a else t) = t + (if c then a else 0) := by
  split <;> simp

/-- The offset interval of the spec as an explicit three-element set. -/
lemma icc_expand : Finset.Icc (-1 : ℤ) 1 = {-1, 0, 1} := by decide

/-- Expansion of a sum over the three offsets. -/
lemma sum_triple (f : ℤ → ℚ) :
    ∑ x ∈ ({-1, 0, 1} : Finset ℤ), f x = f (-1) + f 0 + f 1 := by
  rw [show ({-1, 0, 1} : Finset ℤ) = insert (-1) (insert 0 {1}) from rfl,
    Finset.sum_insert (by decide), Finset.sum_insert (by decide),
    Finset.sum_singleton]
  ring

/-- The loop nest of the source computes exactly the sum the spec describes:
each in-range offset contributes its weighted sample once, each out-of-range
offset contributes zero. -/
lemma convSum_eq_spec (s : ℤ → ℚ) (i j ncols nrows : ℤ) (w : ℤ → ℚ) :
    convSum s i j ncols nrows w = specConvSum s i j ncols nrows w := by
  rw [convSum, specConvSum, icc_expand, sum_triple, sum_triple, sum_triple,
    sum_triple]
  simp only [offs, List.foldl_cons, List.foldl_nil, ite_acc]
  ring_nf

set_option maxHeartbeats 1000000 in
/-- At the corner pixel (0,0) of an image with at least two rows and two
columns, exactly the four in-bounds neighbours contribute. -/
lemma corner00 (s : ℤ → ℚ) (ncols nrows : ℤ) (w : ℤ → ℚ)
    (h1 : 2 ≤ nrows) (h2 : 2 ≤ ncols) :
    convSum s 0 0 ncols nrows w =
      w 4 * s 0 + w 5 * s 1 + w 7 * s ncols + w 8 * s (ncols + 1) := by
  rw [convSum]
  simp only [offs, List.foldl_cons, List.foldl_nil, ite_acc]
  split_ifs <;> first
  | (exfalso; omega)
  | ring_nf

set_option maxHeartbeats 1000000 in
/-- On a constant source, at a pixel whose whole 3x3 neighbourhood is inside
the image, the accumulation collapses to the sum of the nine weights. -/
lemma interior_const (v : ℚ) (i j ncols nrows : ℤ) (w : ℤ → ℚ)
    (hw : w 0 + w 1 + w 2 + w 3 + w 4 + w 5 + w 6 + w 7 + w 8 = 0)
    (h1 : 1 ≤ i) (h2 : i < nrows - 1) (h3 : 1 ≤ j) (h4 : j < ncols - 1) :
    convSum (fun _ => v) i j ncols nrows w = 0 := by
  rw [convSum]
  simp only [offs, List.foldl_cons, List.foldl_nil, ite_acc]
  split_ifs <;> first
  | (exfalso; omega)
  | (ring_nf; linear_combination v * hw)

/-- C2: the evaluator returns sqrt(Gx_sum^2 + Gy_sum^2) where each sum runs
over exactly the 3x3 offsets (dy,dx) of the set {-1,0,1}^2 whose neighbour
(i+dy, j+dx) is inside [0,nrows) x [0,ncols), weighted by gx[(dy+1)*3+(dx+1)]
(resp. gy), out-of-range neighbours contributing exactly zero; at the corner
pixel (0,0) only the 4 in-bounds neighbours contribute. -/
theorem C2_boundary_zero_padding (s : ℤ → ℚ) (i j ncols nrows : ℤ)
    (gx gy : ℤ → ℚ) (h1 : 2 ≤ nrows) (h2 : 2 ≤ ncols) :
    sobel_filtered_pixel_cpu s i j ncols nrows gx gy =
        Real.sqrt ((specConvSum s i j ncols nrows gx *
            specConvSum s i j ncols nrows gx +
          specConvSum s i j ncols nrows gy *
            specConvSum s i j ncols nrows gy : ℚ) : ℝ) ∧
      sobel_filtered_pixel_cpu s 0 0 ncols nrows gx gy =
        Real.sqrt (((gx 4 * s 0 + gx 5 * s 1 + gx 7 * s ncols +
            gx 8 * s (ncols + 1)) *
            (gx 4 * s 0 + gx 5 * s 1 + gx 7 * s ncols + gx 8 * s (ncols + 1)) +
          (gy 4 * s 0 + gy 5 * s 1 + gy 7 * s ncols + gy 8 * s (ncols + 1)) *
            (gy 4 * s 0 + gy 5 * s 1 + gy 7 * s ncols +
              gy 8 * s (ncols + 1)) : ℚ) : ℝ) := by
  constructor
  · simp only [sobel_filtered_pixel_cpu]
    rw [convSum_eq_spec s i j ncols nrows gx, convSum_eq_spec s i j ncols nrows gy]
  · simp only [sobel_filtered_pixel_cpu]
    rw [corner00 s ncols nrows gx h1 h2, corner00 s ncols nrows gy h1 h2]

/-- Witness for C2: source s(k) = k on a 2x2 image, pixel (1,0). -/
theorem C2_boundary_zero_padding_witness :
    sobel_filtered_pixel_cpu (fun k => (k : ℚ)) 1 0 2 2 gxF gyF =
        Real.sqrt ((specConvSum (fun k => (k : ℚ)) 1 0 2 2 gxF *
            specConvSum (fun k => (k : ℚ)) 1 0 2 2 gxF +
          specConvSum (fun k => (k : ℚ)) 1 0 2 2 gyF *
            specConvSum (fun k => (k : ℚ)) 1 0 2 2 gyF : ℚ) : ℝ) ∧
      sobel_filtered_pixel_cpu (fun k => (k : ℚ)) 0 0 2 2 gxF gyF =
        Real.sqrt (((gxF 4 * ((0 : ℤ) : ℚ) + gxF 5 * ((1 : ℤ) : ℚ) +
            gxF 7 * ((2 : ℤ) : ℚ) + gxF 8 * ((2 + 1 : ℤ) : ℚ)) *
            (gxF 4 * ((0 : ℤ) : ℚ) + gxF 5 * ((1 : ℤ) : ℚ) +
              gxF 7 * ((2 : ℤ) : ℚ) + gxF 8 * ((2 + 1 : ℤ) : ℚ)) +
          (gyF 4 * ((0 : ℤ) : ℚ) + gyF 5 * ((1 : ℤ) : ℚ) +
            gyF 7 * ((2 : ℤ) : ℚ) + gyF 8 * ((2 + 1 : ℤ) : ℚ)) *
            (gyF 4 * ((0 : ℤ) : ℚ) + gyF 5 * ((1 : ℤ) : ℚ) +
              gyF 7 * ((2 : ℤ) : ℚ) + gyF 8 * ((2 + 1 : ℤ) : ℚ)) : ℚ) : ℝ) :=
  C2_boundary_zero_padding (fun k => (k : ℚ)) 1 0 2 2 gxF gyF
    (by norm_num) (by norm_num)

/-- C4 as stated is false at the boundary: with the all-ones source on a 2x2
image, the corner pixel (0,0) has Gx_sum = Gy_sum = -3 (the out-of-range
neighbours are dropped and the surviving weights do not cancel), so the
evaluator returns sqrt 18, not 0. -/
theorem C4_flat_field_counterexample :
    sobel_filtered_pixel_cpu (fun _ => 1) 0 0 2 2 gxF gyF ≠ 0 := by
  have hx : convSum (fun _ => 1) 0 0 2 2 gxF = -3 := by
    rw [corner00 (fun _ => 1) 2 2 gxF (by norm_num) (by norm_num),
      show gxF 4 = 0 from rfl, show gxF 5 = -2 from rfl,
      show gxF 7 = 0 from rfl, show gxF 8 = -1 from rfl]
    norm_num
  have hy : convSum (fun _ => 1) 0 0 2 2 gyF = -3 := by
    rw [corner00 (fun _ => 1) 2 2 gyF (by norm_num) (by norm_num),
      show gyF 4 = 0 from rfl, show gyF 5 = 0 from rfl,
      show gyF 7 = -2 from rfl, show gyF 8 = -1 from rfl]
    norm_num
  simp only [sobel_filtered_pixel_cpu]
  rw [hx, hy]
  have h18 : (((-3 : ℚ) * -3 + -3 * -3 : ℚ) : ℝ) = 18 := by norm_num
  rw [h18]
  exact ne_of_gt (Real.sqrt_pos.mpr (by norm_num))

/-- C4 amended: on a uniform source the evaluator returns 0 at every pixel
whose full 3x3 neighbourhood lies inside the image (1 <= row <= nrows-2,
1 <= col <= ncols-2), because the nine weights of each kernel sum to zero;
the claim's extension to boundary and corner pixels is false. -/
theorem C4_flat_field_interior (v : ℚ) (i j ncols nrows : ℤ)
    (h1 : 1 ≤ i) (h2 : i < nrows - 1) (h3 : 1 ≤ j) (h4 : j < ncols - 1) :
    sobel_filtered_pixel_cpu (fun _ => v) i j ncols nrows gxF gyF = 0 := by
  have hwx : gxF 0 + gxF 1 + gxF 2 + gxF 3 + gxF 4 + gxF 5 + gxF 6 + gxF 7 +
      gxF 8 = 0 := by
    rw [show gxF 0 = 1 from rfl, show gxF 1 = 0 from rfl,
      show gxF 2 = -1 from rfl, show gxF 3 = 2 from rfl,
      show gxF 4 = 0 from rfl, show gxF 5 = -2 from rfl,
      show gxF 6 = 1 from rfl, show gxF 7 = 0 from rfl,
      show gxF 8 = -1 from rfl]
    norm_num
  have hwy : gyF 0 + gyF 1 + gyF 2 + gyF 3 + gyF 4 + gyF 5 + gyF 6 + gyF 7 +
      gyF 8 = 0 := by
    rw [show gyF 0 = 1 from rfl, show gyF 1 = 2 from rfl,
      show gyF 2 = 1 from rfl, show gyF 3 = 0 from rfl,
      show gyF 4 = 0 from rfl, show gyF 5 = 0 from rfl,
      show gyF 6 = -1 from rfl, show gyF 7 = -2 from rfl,
      show gyF 8 = -1 from rfl]
    norm_num
  have hx := interior_const v i j ncols nrows gxF hwx h1 h2 h3 h4
  have hy := interior_const v i j ncols nrows gyF hwy h1 h2 h3 h4
  simp only [sobel_filtered_pixel_cpu]
  rw [hx, hy]
  norm_num

/-- Witness for the amended C4: uniform value 5 on a 3x3 image at the centre
pixel. -/
theorem C4_flat_field_interior_witness :
    sobel_filtered_pixel_cpu (fun _ => 5) 1 1 3 3 gxF gyF = 0 :=
  C4_flat_field_interior 5 1 1 3 3 (by norm_num) (by norm_num) (by norm_num)
    (by norm_num)

/-- C7: converting each of the bytes 0, 1, 127, 128, 254, 255 to the
normalized domain as the drivers do (multiplying by the double constant
0.003921568627451 and storing as a binary32 float) and converting back
(multiplying by 255.0 and truncating through the 8-bit cast) reproduces the
byte exactly. -/
theorem C7_round_trip_bytes :
    floatToByte (byteToFloat 0).1 (byteToFloat 0).2 = 0 ∧
      floatToByte (byteToFloat 1).1 (byteToFloat 1).2 = 1 ∧
      floatToByte (byteToFloat 127).1 (byteToFloat 127).2 = 127 ∧
      floatToByte (byteToFloat 128).1 (byteToFloat 128).2 = 128 ∧
      floatToByte (byteToFloat 254).1 (byteToFloat 254).2 = 254 ∧
      floatToByte (byteToFloat 255).1 (byteToFloat 255).2 = 255 :=
  ⟨by decide, by decide, by decide, by decide, by decide, by decide⟩

/-- C8 as stated is false for G past the representable range: at G = 2 the
cast operand is 510.0, outside [0,256), where the double-to-unsigned-char
conversion is undefined behaviour; the result is neither a wrapped byte
(254) nor a saturated one (255). -/
theorem C8_wrap_counterexample :
    quantize 2 = none ∧ quantize 2 ≠ some 254 ∧ quantize 2 ≠ some 255 := by
  have htr : truncToZero ((2 : ℝ) * 255) = 510 := by
    rw [truncToZero, if_neg (by norm_num),
      show ((2 : ℝ) * 255) = ((510 : ℤ) : ℝ) by norm_num, Int.floor_intCast]
  have h : quantize 2 = none := by
    rw [quantize, castToByte, if_neg]
    rw [htr]
    norm_num
  exact ⟨h, by rw [h]; simp, by rw [h]; simp⟩

/-- C8 amended: the quantisation applies no clamping: for every G >= 0 with
G*255 < 256 the stored byte is floor(G*255) (so every G <= 1.0 quantises by
round-down, and G slightly above 1.0 still yields 255 without saturation
logic), while for G*255 >= 256 the operand is out of range for the 8-bit
cast and the conversion is undefined behaviour: there is neither a defined
wrap nor a saturation at 255. -/
theorem C8_no_clamp_quantization (G : ℝ) :
    (0 ≤ G → G * 255 < 256 → quantize G = some ⌊G * 255⌋) ∧
      (256 ≤ G * 255 → quantize G = none) := by
  constructor
  · intro h0 h1
    have hge : (0 : ℝ) ≤ G * 255 := by nlinarith
    have htr : truncToZero (G * 255) = ⌊G * 255⌋ := by
      rw [truncToZero, if_neg (by linarith)]
    rw [quantize, castToByte, if_pos, htr]
    rw [htr]
    constructor
    · exact Int.floor_nonneg.mpr hge
    · have hlt : ⌊G * 255⌋ < 256 := Int.floor_lt.mpr (by
        push_cast
        linarith)
      omega
  · intro h
    have hge : (0 : ℝ) ≤ G * 255 := by linarith
    have htr : truncToZero (G * 255) = ⌊G * 255⌋ := by
      rw [truncToZero, if_neg (by linarith)]
    rw [quantize, castToByte, if_neg]
    rw [htr]
    rintro ⟨-, hle⟩
    have hfl : (256 : ℤ) ≤ ⌊G * 255⌋ := Int.le_floor.mpr (by push_cast; linarith)
    omega

/-- Witness for the amended C8: G = 1/2 quantises to byte 127, G = 3 is out
of range. -/
theorem C8_no_clamp_quantization_witness :
    quantize (1 / 2) = some 127 ∧ quantize 3 = none := by
  have hfl : ⌊(1 / 2 : ℝ) * 255⌋ = 127 := by
    rw [show ((1 / 2 : ℝ) * 255) = 127.5 by norm_num]
    rw [Int.floor_eq_iff]
    norm_num
  exact ⟨((C8_no_clamp_quantization (1 / 2)).1 (by norm_num) (by norm_num)).trans
      (by rw [hfl]),
    (C8_no_clamp_quantization 3).2 (by norm_num)⟩

/-- C6 fails for the GPU executable with a missing input file: its main never
checks the FILE pointer returned by fopen, so the run reaches undefined
behaviour (fread from a null stream) instead of reporting the error and
exiting with code 1. -/
theorem C6_missing_input_counterexample :
    (gpuMainEffects ⟨false, 0, 0⟩ 7).1 = RunOutcome.undefinedBehaviour ∧
      RunOutcome.undefinedBehaviour ≠ RunOutcome.exitCode 1 :=
  ⟨rfl, by decide⟩

/-- C6 amended: the CPU executable reports a missing input file with the
file path and exits 1, and reports a short read or short write (message
without path context) and exits 1; the GPU executable likewise reports and
exits 1 on short read and short write, but it never detects a missing input
file: that run reads from the null stream, which is undefined behaviour,
not an exit-1 report.  Complete runs exit 0 in both executables. -/
theorem C6_io_error_handling (env : RunEnv) (n : ℕ) :
    (env.openOk = false →
      cpuMainEffects env n = (RunOutcome.exitCode 1,
        [" Error opening the input file: " ++ input_fname ++ " \n"]) ∧
      gpuMainEffects env n = (RunOutcome.undefinedBehaviour, [])) ∧
    (env.openOk = true → env.bytesRead ≠ n →
      cpuMainEffects env n = (RunOutcome.exitCode 1,
        ["Error reading input file. \n"]) ∧
      gpuMainEffects env n = (RunOutcome.exitCode 1,
        ["Error reading input file. \n"])) ∧
    (env.openOk = true → env.bytesRead = n → env.bytesWritten ≠ n →
      cpuMainEffects env n = (RunOutcome.exitCode 1,
        [" Read data from the file " ++ input_fname ++ " \n",
         "Error writing output file. \n"]) ∧
      gpuMainEffects env n = (RunOutcome.exitCode 1,
        [" Read data from the file " ++ input_fname ++ " \n",
         "Error writing output file. \n"])) ∧
    (env.openOk = true → env.bytesRead = n → env.bytesWritten = n →
      (cpuMainEffects env n).1 = RunOutcome.exitCode 0 ∧
      (gpuMainEffects env n).1 = RunOutcome.exitCode 0) := by
  obtain ⟨o, r, w⟩ := env
  refine ⟨fun h1 => ?_, fun h1 h2 => ?_, fun h1 h2 h3 => ?_,
    fun h1 h2 h3 => ?_⟩ <;>
    simp_all [cpuMainEffects, gpuMainEffects]

/-- Witness for C6 at concrete environments: a missing file, a short read of
3 of 7 bytes, and a complete run. -/
theorem C6_io_error_handling_witness :
    cpuMainEffects ⟨false, 0, 0⟩ 7 = (RunOutcome.exitCode 1,
        [" Error opening the input file: " ++ input_fname ++ " \n"]) ∧
      gpuMainEffects ⟨false, 0, 0⟩ 7 = (RunOutcome.undefinedBehaviour, []) ∧
      cpuMainEffects ⟨true, 3, 0⟩ 7 = (RunOutcome.exitCode 1,
        ["Error reading input file. \n"]) ∧
      (cpuMainEffects ⟨true, 7, 7⟩ 7).1 = RunOutcome.exitCode 0 :=
  ⟨((C6_io_error_handling ⟨false, 0, 0⟩ 7).1 rfl).1,
    ((C6_io_error_handling ⟨false, 0, 0⟩ 7).1 rfl).2,
    ((C6_io_error_handling ⟨true, 3, 0⟩ 7).2.1 rfl (by decide)).1,
    ((C6_io_error_handling ⟨true, 7, 7⟩ 7).2.2.2 rfl rfl rfl).1⟩
